import Mathlib

/-!
Verification of the ckb typed-message signing library.

The development shallowly embeds the two Rust source files:
  * `src/rust/src/lib.rs`    — the sighash-all protocol (witness scanning,
    group-witness shape checks, input-count boundary probing, digest stream);
  * `src/rust/src/eip712.rs` — the typed-message (EIP-712 style) digest engine.

Modelling conventions:
  * Machine bytes are `Nat`s (each < 256 in practice); byte buffers are
    `List Nat`.
  * The transaction introspection port (ambient syscalls in the original,
    an external collaborator per the design) is an explicit structure.
    A witness/input read either succeeds or reports index-out-of-bound,
    matching the port contract.
  * Streaming hashers (`Blake2b`, `Keccak256`, both external crypto crates)
    are modelled by an explicit accumulated-input state: `update` appends
    bytes, `finalize` applies an abstract hash function to the accumulated
    stream.  All digest theorems are therefore statements about the exact
    byte stream fed to the hash primitive.
  * Rust slice-index aborts (`n[0]` on an empty slice, `copy_from_slice`
    length mismatch) are modelled by a dedicated `Panic` outcome that is
    not a member of the source error enum.
-/

namespace CkbTms

/-- Model of `ckb_std::error::SysError` (the variants this code inspects). -/
inductive SysError where
  | IndexOutOfBound
  | LengthNotEnough (len : Nat)
  deriving DecidableEq, Repr

/-- Model of `Error` from `src/rust/src/lib.rs`. -/
inductive Error where
  | Sys (e : SysError)
  | DuplicateAction
  | MoleculeEncoding
  | NotTypedTransaction
  | NotSighashVariant
  | NonEmptyGroupWitness
  deriving DecidableEq, Repr

/-- Model of the parsed `ExtendedWitnessUnionReader` view: the two variants
the code distinguishes, plus `Other` for every reserved/future variant. -/
inductive ExtendedWitnessU where
  | Sighash (lock : List Nat)
  | SighashWithAction (message : List Nat)
  | Other
  deriving DecidableEq, Repr

/-- A streaming hasher state: the bytes accumulated so far.  `update`
appends; `finalize` applies the abstract hash primitive to `acc`. -/
structure HState where
  acc : List Nat
  deriving DecidableEq, Repr

/-- `hasher.update(bs)`. -/
def hupdate (st : HState) (bs : List Nat) : HState :=
  ⟨st.acc ++ bs⟩

/-- The 16 ASCII bytes of the fixed Blake2b personalization tag
`b"ckb-default-hash"` used in `generate_sighash_all_hash`. -/
def ckb_default_hash_personal : List Nat :=
  [0x63, 0x6b, 0x62, 0x2d, 0x64, 0x65, 0x66, 0x61,
   0x75, 0x6c, 0x74, 0x2d, 0x68, 0x61, 0x73, 0x68]

/-- `(n as u64).to_le_bytes()`: the 8 little-endian bytes of `n` mod 2^64. -/
def u64_le_bytes (n : Nat) : List Nat :=
  [n % 256, n / 256 % 256, n / 65536 % 256, n / 16777216 % 256,
   n / 4294967296 % 256, n / 1099511627776 % 256,
   n / 281474976710656 % 256, n / 72057594037927936 % 256]

/-- The transaction introspection port consumed by `lib.rs`:
  * `tx_hash` — `load_tx_hash()`;
  * `input_witnesses` — `load_witness(i, Source::Input)` succeeds with the
    `i`-th element and fails with `IndexOutOfBound` past the end;
  * `group_witnesses` — likewise for `Source::GroupInput`;
  * `inputs_len` — `load_input_since(i, Source::Input)` succeeds iff
    `i < inputs_len`. -/
structure Port where
  tx_hash : List Nat
  group_witnesses : List (List Nat)
  input_witnesses : List (List Nat)
  inputs_len : Nat

/-- Second loop of `fetch_sighash_with_action` (lib.rs lines 60-72): after a
first `SighashWithAction` was found, scan the remaining input witnesses; a
second `SighashWithAction` is `DuplicateAction`, exhaustion returns the
remembered result.  Witnesses that fail to parse, or parse to any other
variant, are skipped.  The index loop over the port is rendered as
structural recursion on the remaining witness suffix. -/
def fetch_scan_dup (parse : List Nat → Option ExtendedWitnessU) :
    List (List Nat) → List Nat → Except Error (List Nat)
  | [], result => .ok result
  | w :: rest, result =>
    match parse w with
    | some (.SighashWithAction _) => .error .DuplicateAction
    | _ => fetch_scan_dup parse rest result

/-- First loop of `fetch_sighash_with_action` (lib.rs lines 44-57): scan
input witnesses from index 0 for the first `SighashWithAction`; exhaustion
is `NotTypedTransaction`.  Parse failures and other variants are skipped. -/
def fetch_scan_first (parse : List Nat → Option ExtendedWitnessU) :
    List (List Nat) → Except Error (List Nat)
  | [] => .error .NotTypedTransaction
  | w :: rest =>
    match parse w with
    | some (.SighashWithAction m) => fetch_scan_dup parse rest m
    | _ => fetch_scan_first parse rest

/-- `fetch_sighash_with_action` (lib.rs lines 40-73), returning the message
payload of the unique `SighashWithAction` witness.  `parse` models the
external molecule codec `ExtendedWitnessReader::from_slice` combined with
`to_enum` (`none` = verification failure). -/
def fetch_sighash_with_action (parse : List Nat → Option ExtendedWitnessU)
    (input_witnesses : List (List Nat)) : Except Error (List Nat) :=
  fetch_scan_first parse input_witnesses

/-- The `SighashWithAction` view of one witness under the codec `parse`:
`some m` iff the witness parses and is the `SighashWithAction` variant with
message payload `m`. -/
def parse_action (parse : List Nat → Option ExtendedWitnessU)
    (w : List Nat) : Option (List Nat) :=
  match parse w with
  | some (.SighashWithAction m) => some m
  | _ => none

/-- Loop body of the group-witness emptiness check (lib.rs lines 108-124),
over the remaining group-witness suffix from index 1. -/
def check_group_empty_go : List (List Nat) → Except Error Unit
  | [] => .ok ()
  | w :: rest =>
    if w.length > 0 then .error .NonEmptyGroupWitness
    else check_group_empty_go rest

/-- Loop body of the trailing-witness hashing (lib.rs lines 127-142): for
each remaining `Input`-source witness feed its length as 8 little-endian
bytes, then its raw bytes. -/
def hash_remaining_go : List (List Nat) → HState → HState
  | [], st => st
  | w :: rest, st => hash_remaining_go rest (hupdate (hupdate st (u64_le_bytes w.length)) w)

/-- Exponential probe phase of `calculate_inputs_len` (lib.rs lines 152-165)
against a port with `k` existing inputs: while `load_input_since(hi)`
succeeds (`hi < k`), set `lo := hi, hi := hi * 2`.  The returned pair
carries the loop invariant `lo < hi`. -/
def inputs_len_probe_up (k lo hi : Nat) (hpos : 0 < hi) (hlt : lo < hi) :
    {p : Nat × Nat // p.1 < p.2} :=
  if h : hi < k then
    inputs_len_probe_up k hi (hi * 2) (by omega) (by omega)
  else
    ⟨(lo, hi), hlt⟩
termination_by k - hi
decreasing_by omega

/-- Binary-search phase of `calculate_inputs_len` (lib.rs lines 167-178):
narrow `(lo, hi)` with midpoint probes (`i < k` = probe success) until
`lo + 1 = hi`, then return `hi`. -/
def inputs_len_bsearch (k lo hi : Nat) (h : lo < hi) : Nat :=
  if heq : lo + 1 = hi then hi
  else
    let i := (lo + hi) / 2
    if hi2 : i < k then inputs_len_bsearch k i hi (by omega)
    else inputs_len_bsearch k lo i (by omega)
termination_by hi - lo
decreasing_by
  · omega
  · omega

/-- `calculate_inputs_len` (lib.rs lines 151-181) against a port with `k`
existing inputs: exponential probing from `lo = 0, hi = 4`, then binary
search; returns `hi`, the first probed-nonexistent index. -/
def calculate_inputs_len (k : Nat) : Nat :=
  let p := inputs_len_probe_up k 0 4 (by omega) (by omega)
  inputs_len_bsearch k p.1.1 p.1.2 p.2

/-- `generate_sighash_all_hash` (lib.rs lines 82-148).  `blake` is the
abstract Blake2b-256 primitive, taking the personalization bytes and the
accumulated input stream.  `parse` is the external molecule codec for
`ExtendedWitness`. -/
def generate_sighash_all_hash (blake : List Nat → List Nat → List Nat)
    (parse : List Nat → Option ExtendedWitnessU) (p : Port) :
    Except Error (List Nat) := do
  let hasher : HState := ⟨[]⟩
  let hasher := hupdate hasher p.tx_hash
  let hasher ← match p.group_witnesses[0]? with
    | none => Except.error (Error.Sys SysError.IndexOutOfBound)
    | some witness =>
      match parse witness with
      | none => Except.error Error.MoleculeEncoding
      | some (.SighashWithAction m) =>
        Except.ok (hupdate (hupdate hasher [1]) m)
      | some (.Sighash _) => Except.ok (hupdate hasher [0])
      | some .Other => Except.error Error.NotSighashVariant
  check_group_empty_go (p.group_witnesses.drop 1)
  let n := calculate_inputs_len p.inputs_len
  let hasher := hash_remaining_go (p.input_witnesses.drop n) hasher
  Except.ok (blake ckb_default_hash_personal hasher.acc)

/-- The bytes the first (group index 0) witness contributes to the sighash
stream, per variant: marker `1` plus the raw message payload for
`SighashWithAction`, the single marker `0` for `Sighash`, nothing (error)
for other variants. -/
def first_witness_bytes : ExtendedWitnessU → Option (List Nat)
  | .SighashWithAction m => some ([1] ++ m)
  | .Sighash _ => some [0]
  | .Other => none

/-! ### The typed-message digest engine, `src/rust/src/eip712.rs` -/

/-- Model of `Error` from `src/rust/src/eip712.rs`, extended with `Panic`:
`Panic` is NOT a member of the source enum, it models a Rust abort from an
out-of-bounds slice access (`n[0]` on an empty slice) or a
`copy_from_slice` length mismatch. -/
inductive Error712 where
  | MoleculeEncoding
  | Sys (e : SysError)
  | CellDataEof
  | InvalidSource
  | InvalidBool
  | InvalidNumber
  | InvalidFixedBytes
  | Panic
  deriving DecidableEq, Repr

/-- The parsed molecule `Hash` union (external schema): an inline 32-byte
digest, or deferred coordinates into cell data / the serialized
transaction.  The `source`, `index` and `offset` fields hold the numeric
values decoded from the little-endian raw bytes by `fetch_hash`. -/
inductive Hash712 where
  | Byte32 (data : List Nat)
  | RefCell (source index offset : Nat)
  | RefTransaction (offset : Nat)
  deriving DecidableEq, Repr

/-- Modelled from the spec: the outcome of one 32-byte-window read of the
transaction introspection port (`load_cell_data` / `load_transaction` of
`ckb_std`, external, not under `src/`).  Per the port contract a read may
fail with not-found, succeed with possibly fewer bytes than requested
(`ok bytes` with `bytes` the prefix actually written, the return value
being `bytes.length`), or report the distinguished insufficient-buffer
status (`lengthNotEnough bytes` with `bytes` the prefix written). -/
inductive ReadResult where
  | ok (bytes : List Nat)
  | lengthNotEnough (bytes : List Nat)
  | notFound
  deriving DecidableEq, Repr

/-- Modelled from the spec: the introspection port consumed by
`eip712.rs`, viewing reads as 32-byte-window requests:
`cell_read source index offset` models
`load_cell_data(&mut buf32, offset, index, source)` and
`tx_read offset` models `load_transaction(&mut buf32, offset)`. -/
structure Port712 where
  cell_read : Nat → Nat → Nat → ReadResult
  tx_read : Nat → ReadResult

/-- Numeric codes of the six `Source` values of `ckb_std`. -/
def SOURCE_INPUT : Nat := 1
def SOURCE_OUTPUT : Nat := 2
def SOURCE_CELL_DEP : Nat := 3
def SOURCE_HEADER_DEP : Nat := 4
def SOURCE_GROUP_INPUT : Nat := 0x0100000000000001
def SOURCE_GROUP_OUTPUT : Nat := 0x0100000000000002

/-- `u64_to_source` (eip712.rs lines 69-79): translate a numeric source
code into one of the six known regions, else `InvalidSource`.  The region
is represented by its own numeric code. -/
def u64_to_source (source : Nat) : Except Error712 Nat :=
  if source = SOURCE_INPUT then .ok SOURCE_INPUT
  else if source = SOURCE_OUTPUT then .ok SOURCE_OUTPUT
  else if source = SOURCE_CELL_DEP then .ok SOURCE_CELL_DEP
  else if source = SOURCE_HEADER_DEP then .ok SOURCE_HEADER_DEP
  else if source = SOURCE_GROUP_INPUT then .ok SOURCE_GROUP_INPUT
  else if source = SOURCE_GROUP_OUTPUT then .ok SOURCE_GROUP_OUTPUT
  else .error .InvalidSource

/-- The contents of the pre-zeroed 32-byte destination buffer after the
port wrote the prefix `bytes` into it: the written prefix (at most 32
bytes) followed by the untouched zero fill. -/
def window32 (bytes : List Nat) : List Nat :=
  bytes.take 32 ++ List.replicate (32 - bytes.length) 0

/-- `fetch_hash` (eip712.rs lines 81-136): resolve a `Hash` reference.
Inline `Byte32` data is copied out (`copy_from_slice` aborts unless it is
exactly 32 bytes — schema-guaranteed in the source).  For the two deferred
forms, read a 32-byte window into a pre-zeroed buffer: a successful read
of fewer than 32 bytes is `CellDataEof`; the insufficient-buffer status is
treated as success; not-found propagates as a system error. -/
def fetch_hash (port : Port712) : Hash712 → Except Error712 (List Nat)
  | .Byte32 d => if d.length = 32 then .ok d else .error .Panic
  | .RefCell source index offset => do
    let src ← u64_to_source source
    match port.cell_read src index offset with
    | .ok bytes =>
      if bytes.length < 32 then .error .CellDataEof else .ok (window32 bytes)
    | .lengthNotEnough bytes => .ok (window32 bytes)
    | .notFound => .error (.Sys .IndexOutOfBound)
  | .RefTransaction offset =>
    match port.tx_read offset with
    | .ok bytes =>
      if bytes.length < 32 then .error .CellDataEof else .ok (window32 bytes)
    | .lengthNotEnough bytes => .ok (window32 bytes)
    | .notFound => .error (.Sys .IndexOutOfBound)

mutual
/-- The parsed molecule `Struct` view (external schema): a type hash and
the declared-order sequence of member values.  The serialized-value
sub-parsing done by the source's loops is elided: the external codec
is assumed to hand well-typed views, so `values` holds parsed values. -/
inductive Struct712 where
  | mk (type_hash : Hash712) (values : List Value712)

/-- The parsed molecule `Value` union (external schema).  Leaf payloads
are the `raw_data()` byte views the source reads. -/
inductive Value712 where
  | Struct (s : Struct712)
  | Array (values : List Value712)
  | Bool (raw : List Nat)
  | Bytes (raw : List Nat)
  | Str (raw : List Nat)
  | Address (raw : List Nat)
  | FixedBytes (raw : List Nat)
  | Int (raw : List Nat)
  | Uint (raw : List Nat)
end

/-- The `type_hash` field of a `Struct` view. -/
def Struct712.type_hash : Struct712 → Hash712
  | .mk th _ => th

/-- The `values` field of a `Struct` view. -/
def Struct712.values : Struct712 → List Value712
  | .mk _ vs => vs

/-- The parsed molecule `TypedMessage` union (external schema), with its
single current variant. -/
inductive TypedMessage712 where
  | EIP712 (domain_separator : Hash712) (message : Struct712)

/-- `encode_number` (eip712.rs lines 206-223): reject payloads longer than
32 bytes; otherwise right-align the raw bytes in a 32-byte buffer whose
head is filled with `0xFF` when signed and the sign bit of the first
payload byte is set, else `0x00`.  Reading the first byte of an empty
signed payload is a Rust slice abort, modelled as `Panic`. -/
def encode_number (st : HState) (n : List Nat) (signed : Bool) :
    Except Error712 HState :=
  if n.length > 32 then .error .InvalidNumber
  else
    match signed, n.head? with
    | true, none => .error .Panic
    | true, some b0 =>
      .ok (hupdate st (List.replicate (32 - n.length)
        (if b0 &&& 0x80 ≠ 0 then 0xFF else 0) ++ n))
    | false, _ => .ok (hupdate st (List.replicate (32 - n.length) 0 ++ n))

mutual
/-- `hash_struct` (eip712.rs lines 138-149): one fresh Keccak256 hasher is
fed the resolved type hash followed by every member's encoding in declared
order, then finalized. -/
def hash_struct (keccak : List Nat → List Nat) (port : Port712) :
    Struct712 → Except Error712 (List Nat)
  | .mk th vs => do
    let st : HState := ⟨[]⟩
    let st := hupdate st (← fetch_hash port th)
    let st ← encode_values keccak port vs st
    pure (keccak st.acc)

/-- The member loop shared by `hash_struct` and the `Array` arm of
`encode_value`: encode each value in order into the running hasher. -/
def encode_values (keccak : List Nat → List Nat) (port : Port712) :
    List Value712 → HState → Except Error712 HState
  | [], st => pure st
  | v :: rest, st => do
    let st ← encode_value keccak port v st
    encode_values keccak port rest st

/-- `encode_value` (eip712.rs lines 151-204): write one value's encoding
into the running hasher `st`. -/
def encode_value (keccak : List Nat → List Nat) (port : Port712) :
    Value712 → HState → Except Error712 HState
  | .Struct s, st => do
    let h ← hash_struct keccak port s
    pure (hupdate st h)
  | .Array vs, st => encode_values keccak port vs st
  | .Bool raw, st =>
    match raw.head? with
    | none => .error .Panic
    | some b0 =>
      if b0 ≠ 0 ∧ b0 ≠ 1 then .error .InvalidBool
      else encode_number st raw false
  | .Bytes raw, st => pure (hupdate st (keccak raw))
  | .Str raw, st => pure (hupdate st (keccak raw))
  | .Address raw, st => encode_number st raw false
  | .FixedBytes raw, st =>
    if raw.length > 32 then .error .InvalidFixedBytes
    else pure (hupdate st (raw ++ List.replicate (32 - raw.length) 0))
  | .Int raw, st => encode_number st raw true
  | .Uint raw, st => encode_number st raw false
end

/-- Spec-side byte encoding of a number, following the spec's words: reject
payloads over 32 bytes, right-align into a 32-byte buffer, sign-extend the
head for signed values.  Returns the 32 encoded bytes instead of updating
a hasher. -/
def spec_encode_number (n : List Nat) (signed : Bool) :
    Except Error712 (List Nat) :=
  if n.length > 32 then .error .InvalidNumber
  else
    match signed, n.head? with
    | true, none => .error .Panic
    | true, some b0 =>
      .ok (List.replicate (32 - n.length)
        (if b0 &&& 0x80 ≠ 0 then 0xFF else 0) ++ n)
    | false, _ => .ok (List.replicate (32 - n.length) 0 ++ n)

mutual
/-- Spec-side `hash_struct`, following the spec's words: the Keccak256 of
the resolved type hash concatenated with the encodings of all members in
declared order — one hash input, members not hashed individually. -/
def spec_hash_struct (keccak : List Nat → List Nat) (port : Port712) :
    Struct712 → Except Error712 (List Nat)
  | .mk th vs => do
    let h ← fetch_hash port th
    let enc ← spec_values_encoding keccak port vs
    pure (keccak (h ++ enc))

/-- Spec-side concatenated encoding of a value sequence: each element
contributes its own encoding directly, appended in order. -/
def spec_values_encoding (keccak : List Nat → List Nat) (port : Port712) :
    List Value712 → Except Error712 (List Nat)
  | [] => pure []
  | v :: rest => do
    let b ← spec_value_encoding keccak port v
    let bs ← spec_values_encoding keccak port rest
    pure (b ++ bs)

/-- Spec-side byte encoding of one value: the bytes `encode(value)`
appends to the enclosing hash's running input, per the spec's per-variant
description (an `Array` flattens its elements' encodings in place, it does
not pre-hash their concatenation). -/
def spec_value_encoding (keccak : List Nat → List Nat) (port : Port712) :
    Value712 → Except Error712 (List Nat)
  | .Struct s => spec_hash_struct keccak port s
  | .Array vs => spec_values_encoding keccak port vs
  | .Bool raw =>
    match raw.head? with
    | none => .error .Panic
    | some b0 =>
      if b0 ≠ 0 ∧ b0 ≠ 1 then .error .InvalidBool
      else spec_encode_number raw false
  | .Bytes raw => pure (keccak raw)
  | .Str raw => pure (keccak raw)
  | .Address raw => spec_encode_number raw false
  | .FixedBytes raw =>
    if raw.length > 32 then .error .InvalidFixedBytes
    else pure (raw ++ List.replicate (32 - raw.length) 0)
  | .Int raw => spec_encode_number raw true
  | .Uint raw => spec_encode_number raw false
end

/-- `build_typed_message_hash` (eip712.rs lines 52-66): Keccak256 over the
two magic bytes `0x19 0x01`, the resolved domain separator, and the
message struct hash. -/
def build_typed_message_hash (keccak : List Nat → List Nat)
    (port : Port712) : TypedMessage712 → Except Error712 (List Nat)
  | .EIP712 domain message => do
    let st : HState := ⟨[]⟩
    let st := hupdate st [0x19, 0x01]
    let st := hupdate st (← fetch_hash port domain)
    let st := hupdate st (← hash_struct keccak port message)
    pure (keccak st.acc)

/-- A small concrete codec used as a test fixture: `[0]` decodes to a
`Sighash` witness, `[1]` to a `SighashWithAction` witness with message
payload `[9]`, `[2]` to a reserved variant, everything else fails to
parse. -/
def parse_fixture : List Nat → Option ExtendedWitnessU
  | [0] => some (.Sighash [])
  | [1] => some (.SighashWithAction [9])
  | [2] => some .Other
  | _ => none

/-- A trivial eip712 port fixture: every deferred read reports
not-found. -/
def port712_fixture : Port712 :=
  ⟨fun _ _ _ => .notFound, fun _ => .notFound⟩

/-! ### Helper lemmas -/

theorem inputs_len_probe_up_spec (k : Nat) :
    ∀ (lo hi : Nat) (hpos : 0 < hi) (hlt : lo < hi), (lo = 0 ∨ lo < k) →
    k ≤ (inputs_len_probe_up k lo hi hpos hlt).1.2 ∧
      ((inputs_len_probe_up k lo hi hpos hlt).1.1 = 0 ∨
        (inputs_len_probe_up k lo hi hpos hlt).1.1 < k) := by
  apply inputs_len_probe_up.induct k
    (motive := fun lo hi hpos hlt => (lo = 0 ∨ lo < k) →
      k ≤ (inputs_len_probe_up k lo hi hpos hlt).1.2 ∧
        ((inputs_len_probe_up k lo hi hpos hlt).1.1 = 0 ∨
          (inputs_len_probe_up k lo hi hpos hlt).1.1 < k))
  · intro lo hi hpos hlt h ih _
    rw [inputs_len_probe_up]
    simp only [dif_pos h]
    exact ih (Or.inr h)
  · intro lo hi hpos hlt h hlo
    rw [inputs_len_probe_up]
    simp only [dif_neg h]
    exact ⟨by omega, hlo⟩

theorem inputs_len_bsearch_spec (k : Nat) :
    ∀ (lo hi : Nat) (h : lo < hi), k ≤ hi → (lo = 0 ∨ lo < k) →
    inputs_len_bsearch k lo hi h = max k 1 := by
  apply inputs_len_bsearch.induct k
    (motive := fun lo hi h => k ≤ hi → (lo = 0 ∨ lo < k) →
      inputs_len_bsearch k lo hi h = max k 1)
  · intro lo h hhi hlo
    rw [inputs_len_bsearch]
    simp only [dif_pos rfl, dite_true]
    omega
  · intro lo hi h heq i hmid ih hhi hlo
    rw [inputs_len_bsearch]
    simp only [dif_neg heq]
    simp only [dif_pos hmid]
    exact ih hhi (Or.inr hmid)
  · intro lo hi h heq i hmid ih hhi hlo
    rw [inputs_len_bsearch]
    simp only [dif_neg heq]
    simp only [dif_neg hmid]
    exact ih (by omega) hlo

/-- The boundary probe returns the exact input count for `k ≥ 1` and
returns `1` when `k = 0` (index 0 is never probed). -/
theorem calculate_inputs_len_eq_max (k : Nat) :
    calculate_inputs_len k = max k 1 := by
  unfold calculate_inputs_len
  have h := inputs_len_probe_up_spec k 0 4 (by omega) (by omega) (Or.inl rfl)
  exact inputs_len_bsearch_spec k _ _ _ h.1 h.2

theorem check_group_empty_go_eq (l : List (List Nat)) :
    check_group_empty_go l =
      if ∃ w ∈ l, w ≠ [] then Except.error Error.NonEmptyGroupWitness
      else Except.ok () := by
  induction l with
  | nil => simp [check_group_empty_go]
  | cons w rest ih =>
    by_cases hw : w = []
    · subst hw
      simp [check_group_empty_go, ih]
    · have hlen : w.length > 0 := by
        cases w
        · simp at hw
        · simp
      simp [check_group_empty_go, hlen, hw]

theorem hash_remaining_go_acc (l : List (List Nat)) :
    ∀ st, hash_remaining_go l st =
      ⟨st.acc ++ (l.map (fun w => u64_le_bytes w.length ++ w)).flatten⟩ := by
  induction l with
  | nil => intro st; simp [hash_remaining_go]
  | cons w rest ih =>
    intro st
    simp [hash_remaining_go, ih, hupdate]

theorem fetch_scan_dup_eq (parse : List Nat → Option ExtendedWitnessU)
    (r : List Nat) : ∀ l : List (List Nat),
    fetch_scan_dup parse l r =
      if l.countP (fun w => (parse_action parse w).isSome) = 0
      then Except.ok r else Except.error Error.DuplicateAction := by
  intro l
  induction l with
  | nil => simp [fetch_scan_dup]
  | cons w rest ih =>
    rcases hp : parse w with _ | ew
    · simp [fetch_scan_dup, hp, parse_action, List.countP_cons, ih]
    · cases ew with
      | Sighash lock =>
        simp [fetch_scan_dup, hp, parse_action, List.countP_cons, ih]
      | SighashWithAction m =>
        simp [fetch_scan_dup, hp, parse_action, List.countP_cons]
      | Other =>
        simp [fetch_scan_dup, hp, parse_action, List.countP_cons, ih]

theorem fetch_scan_first_eq (parse : List Nat → Option ExtendedWitnessU) :
    ∀ l : List (List Nat),
    fetch_scan_first parse l =
      match l.find? (fun w => (parse_action parse w).isSome) with
      | none => Except.error Error.NotTypedTransaction
      | some w =>
        if 2 ≤ l.countP (fun w => (parse_action parse w).isSome)
        then Except.error Error.DuplicateAction
        else Except.ok ((parse_action parse w).getD []) := by
  intro l
  induction l with
  | nil => simp [fetch_scan_first]
  | cons w rest ih =>
    rcases hp : parse w with _ | ew
    · have hpa : parse_action parse w = none := by simp [parse_action, hp]
      simp [fetch_scan_first, hp, List.find?_cons, hpa, List.countP_cons, ih]
    · cases ew with
      | Sighash lock =>
        have hpa : parse_action parse w = none := by simp [parse_action, hp]
        simp [fetch_scan_first, hp, List.find?_cons, hpa, List.countP_cons, ih]
      | SighashWithAction m =>
        have hpa : parse_action parse w = some m := by simp [parse_action, hp]
        simp [fetch_scan_first, hp, List.find?_cons, hpa, List.countP_cons,
          fetch_scan_dup_eq]
        by_cases hall : ∀ a ∈ rest, parse_action parse a = none
        · have hno : ¬ ∃ a ∈ rest, (parse_action parse a).isSome = true := by
            rintro ⟨a, ha, hsome⟩
            rw [hall a ha] at hsome
            simp at hsome
          simp [hno]
          exact hall
        · have hyes : ∃ a ∈ rest, (parse_action parse a).isSome = true := by
            push_neg at hall
            obtain ⟨a, ha, hne⟩ := hall
            exact ⟨a, ha, by simp [Option.isSome_iff_ne_none, hne]⟩
          simp [hall, hyes]
      | Other =>
        have hpa : parse_action parse w = none := by simp [parse_action, hp]
        simp [fetch_scan_first, hp, List.find?_cons, hpa, List.countP_cons, ih]

theorem list_find_congr {α : Type} (p q : α → Bool) :
    ∀ l : List α, (∀ a ∈ l, p a = q a) → l.find? p = l.find? q := by
  intro l
  induction l with
  | nil => intro _; rfl
  | cons a rest ih =>
    intro h
    have ha := h a (List.mem_cons_self a rest)
    by_cases hp : p a = true
    · rw [List.find?_cons_of_pos _ hp, List.find?_cons_of_pos _ (ha ▸ hp)]
    · have hq : ¬ q a = true := ha ▸ hp
      rw [List.find?_cons_of_neg _ (by simpa using hp),
        List.find?_cons_of_neg _ (by simpa using hq)]
      exact ih (fun b hb => h b (List.mem_cons_of_mem _ hb))

theorem list_countP_congr {α : Type} (p q : α → Bool) :
    ∀ l : List α, (∀ a ∈ l, p a = q a) → l.countP p = l.countP q := by
  intro l
  induction l with
  | nil => intro _; rfl
  | cons a rest ih =>
    intro h
    have ha := h a (List.mem_cons_self a rest)
    rw [List.countP_cons, List.countP_cons, ha,
      ih (fun b hb => h b (List.mem_cons_of_mem _ hb))]

/-! ### Claim theorems for the sighash-all protocol -/

/-- C2 counterexample: with zero existing inputs, `calculate_inputs_len`
returns 1, not the exact input count 0 — index 0 is never probed, so the
probe cannot distinguish an empty input set from a single input. -/
theorem claim2_counterexample :
    calculate_inputs_len 0 = 1 ∧ calculate_inputs_len 0 ≠ 0 := by
  rw [calculate_inputs_len_eq_max]
  omega

/-- C2 (amended): `calculate_inputs_len` terminates (it is a total
function) and returns `max k 1` against a port with `k` existing inputs:
the exact input count — the first index at which the input-since probe
reports not-found — for every `k ≥ 1`, but `1` when `k = 0`. -/
theorem claim2_inputs_len_amended (k : Nat) :
    calculate_inputs_len k = max k 1 :=
  calculate_inputs_len_eq_max k

/-- C3: `fetch_sighash_with_action` scans the input witnesses from index 0
and (a) returns `NotTypedTransaction` iff no witness parses as the
`SighashWithAction` variant, (b) returns `DuplicateAction` iff at least two
witnesses parse as `SighashWithAction` (a second one exists after the
first), and (c) otherwise returns the payload of the first
`SighashWithAction` witness (the one `find?` locates). -/
theorem claim3_fetch_action_spec
    (parse : List Nat → Option ExtendedWitnessU) (l : List (List Nat)) :
    (fetch_sighash_with_action parse l = .error .NotTypedTransaction ↔
      ∀ w ∈ l, parse_action parse w = none) ∧
    (fetch_sighash_with_action parse l = .error .DuplicateAction ↔
      2 ≤ l.countP (fun w => (parse_action parse w).isSome)) ∧
    (∀ w m, l.find? (fun w => (parse_action parse w).isSome) = some w →
      parse_action parse w = some m →
      l.countP (fun w => (parse_action parse w).isSome) ≤ 1 →
      fetch_sighash_with_action parse l = .ok m) := by
  unfold fetch_sighash_with_action
  rw [fetch_scan_first_eq]
  refine ⟨?_, ?_, ?_⟩
  · rcases hf : l.find? (fun w => (parse_action parse w).isSome) with _ | w
    · simp only [hf]
      rw [List.find?_eq_none] at hf
      constructor
      · intro _ w hw
        have := hf w hw
        simpa [Option.isSome_iff_ne_none] using this
      · intro _; trivial
    · simp only [hf]
      have hmem := List.mem_of_find?_eq_some hf
      have hsome := List.find?_some hf
      constructor
      · intro h
        by_cases h2 : 2 ≤ l.countP (fun w => (parse_action parse w).isSome)
        · simp [h2] at h
        · simp [h2] at h
      · intro hall
        have := hall w hmem
        rw [this] at hsome
        simp at hsome
  · rcases hf : l.find? (fun w => (parse_action parse w).isSome) with _ | w
    · simp only [hf]
      rw [List.find?_eq_none] at hf
      constructor
      · intro h; cases h
      · intro h2
        have hpos : 0 < l.countP (fun w => (parse_action parse w).isSome) := by
          omega
        rw [List.countP_pos_iff] at hpos
        obtain ⟨a, ha, hpa⟩ := hpos
        exact absurd hpa (by simpa using hf a ha)
    · simp only [hf]
      by_cases h2 : 2 ≤ l.countP (fun w => (parse_action parse w).isSome)
      · simp [h2]
      · simp [h2]
  · intro w m hf hm hcount
    simp only [hf]
    rw [if_neg (by omega)]
    rw [hm]
    rfl

/-- C3 witness: the spec's scan example — witnesses decoding to
`[Sighash, SighashWithAction, Sighash]` yield the action payload. -/
theorem claim3_witness :
    fetch_sighash_with_action parse_fixture [[0], [1], [0]] = .ok [9] :=
  (claim3_fetch_action_spec parse_fixture [[0], [1], [0]]).2.2 [1] [9]
    (by decide) (by decide) (by decide)

/-- C9: the scan of `fetch_sighash_with_action` silently skips witnesses
that fail to parse as `ExtendedWitness`, treating them like non-action
witnesses: the result never is the malformed-encoding error, and it
depends only on each witness's `SighashWithAction` view (two codecs that
agree on which witnesses are valid `SighashWithAction`s — and on their
payloads — produce the same result, regardless of parse failures). -/
theorem claim9_parse_failure_skipped :
    (∀ (parse parse2 : List Nat → Option ExtendedWitnessU)
      (l : List (List Nat)),
      (∀ w ∈ l, parse_action parse w = parse_action parse2 w) →
      fetch_sighash_with_action parse l = fetch_sighash_with_action parse2 l) ∧
    (∀ (parse : List Nat → Option ExtendedWitnessU) (l : List (List Nat)),
      fetch_sighash_with_action parse l ≠ .error .MoleculeEncoding) := by
  constructor
  · intro parse parse2 l h
    unfold fetch_sighash_with_action
    rw [fetch_scan_first_eq, fetch_scan_first_eq]
    have hpred : ∀ a ∈ l, (parse_action parse a).isSome =
        (parse_action parse2 a).isSome := by
      intro a ha; rw [h a ha]
    rw [list_find_congr _ _ l hpred, list_countP_congr _ _ l hpred]
    rcases hf : l.find? (fun w => (parse_action parse2 w).isSome) with _ | w
    · rfl
    · have hmem := List.mem_of_find?_eq_some hf
      simp only [h w hmem]
  · intro parse l
    unfold fetch_sighash_with_action
    rw [fetch_scan_first_eq]
    rcases hf : l.find? (fun w => (parse_action parse w).isSome) with _ | w
    · simp
    · by_cases h2 : 2 ≤ l.countP (fun w => (parse_action parse w).isSome)
      · simp [h2]
      · simp [h2]

/-- C9 witness: a codec that rejects every witness and a codec that parses
every witness as a reserved variant produce the same scan outcome, and a
parse failure does not surface as the malformed-encoding error. -/
theorem claim9_witness :
    fetch_sighash_with_action (fun _ => none) [[5]] =
      fetch_sighash_with_action (fun _ => some ExtendedWitnessU.Other) [[5]] ∧
    fetch_sighash_with_action (fun _ => none) [[5]] ≠
      .error .MoleculeEncoding :=
  ⟨claim9_parse_failure_skipped.1 _ _ [[5]] (by decide),
    claim9_parse_failure_skipped.2 _ [[5]]⟩

/-- C1: for a typed transaction whose group witness 0 parses as a
`Sighash`-family variant and whose later group witnesses are empty,
`generate_sighash_all_hash` returns the Blake2b digest, personalized with
the fixed 16-byte tag, of exactly: the transaction hash; then marker `1`
plus the raw message payload (no length prefix) for `SighashWithAction`
or marker `0` alone for `Sighash` (`first_witness_bytes`); then, for every
`Input`-source witness from `calculate_inputs_len` upward, its length as
8 little-endian bytes followed by its raw bytes.  With a `Sighash` group
witness and no trailing witnesses the stream is exactly `H ++ [0]` (see
the witness theorem). -/
theorem claim1_sighash_all_stream (blake : List Nat → List Nat → List Nat)
    (parse : List Nat → Option ExtendedWitnessU) (p : Port)
    (w0 fb : List Nat) (ew : ExtendedWitnessU)
    (h0 : p.group_witnesses[0]? = some w0)
    (hp : parse w0 = some ew)
    (hfb : first_witness_bytes ew = some fb)
    (hempty : ∀ w ∈ p.group_witnesses.drop 1, w = []) :
    generate_sighash_all_hash blake parse p =
      .ok (blake ckb_default_hash_personal
        (p.tx_hash ++ fb ++
          ((p.input_witnesses.drop (calculate_inputs_len p.inputs_len)).map
            (fun w => u64_le_bytes w.length ++ w)).flatten)) := by
  unfold generate_sighash_all_hash
  rw [h0]
  simp only [hp]
  have hno : ¬ ∃ w ∈ p.group_witnesses.drop 1, w ≠ [] := by
    rintro ⟨w, hw, hne⟩
    exact hne (hempty w hw)
  rw [check_group_empty_go_eq, if_neg hno]
  cases ew with
  | Sighash s =>
    simp only [first_witness_bytes, Option.some_inj] at hfb
    subst hfb
    simp [hash_remaining_go_acc, hupdate, Bind.bind, Except.bind]
  | SighashWithAction m =>
    simp only [first_witness_bytes, Option.some_inj] at hfb
    subst hfb
    simp [hash_remaining_go_acc, hupdate, Bind.bind, Except.bind]
  | Other => simp [first_witness_bytes] at hfb

/-- C1 witness: the spec's end-to-end scenario — transaction hash `H`, a
`Sighash`-variant group witness, and no trailing witnesses give the stream
`H ++ [0]` with no further bytes appended. -/
theorem claim1_witness :
    generate_sighash_all_hash (fun _ x => x) parse_fixture
      ⟨List.replicate 32 17, [[0]], [], 1⟩ =
      .ok (List.replicate 32 17 ++ [0]) := by
  have h := claim1_sighash_all_stream (fun _ x => x) parse_fixture
    ⟨List.replicate 32 17, [[0]], [], 1⟩ [0] [0] (.Sighash [])
    rfl rfl rfl (by simp)
  simpa using h

/-- C4: once group witness 0 parses as one of the two `Sighash`-family
variants, `generate_sighash_all_hash` fails with `NonEmptyGroupWitness`
exactly when some `GroupInput` witness at an index from 1 up to the first
not-found index is non-empty. -/
theorem claim4_group_witness_shape (blake : List Nat → List Nat → List Nat)
    (parse : List Nat → Option ExtendedWitnessU) (p : Port)
    (w0 : List Nat) (ew : ExtendedWitnessU)
    (h0 : p.group_witnesses[0]? = some w0)
    (hp : parse w0 = some ew)
    (hv : ew ≠ .Other) :
    (generate_sighash_all_hash blake parse p =
        .error .NonEmptyGroupWitness ↔
      ∃ w ∈ p.group_witnesses.drop 1, w ≠ []) := by
  unfold generate_sighash_all_hash
  rw [h0]
  simp only [hp]
  cases ew with
  | Other => exact absurd rfl hv
  | Sighash s =>
    rw [check_group_empty_go_eq]
    by_cases hex : ∃ w ∈ p.group_witnesses.drop 1, w ≠ []
    · rw [if_pos hex]
      simp [Bind.bind, Except.bind]
      simpa [List.drop_one] using hex
    · rw [if_neg hex]
      simp [Bind.bind, Except.bind]
      push_neg at hex
      simpa [List.drop_one] using hex
  | SighashWithAction m =>
    rw [check_group_empty_go_eq]
    by_cases hex : ∃ w ∈ p.group_witnesses.drop 1, w ≠ []
    · rw [if_pos hex]
      simp [Bind.bind, Except.bind]
      simpa [List.drop_one] using hex
    · rw [if_neg hex]
      simp [Bind.bind, Except.bind]
      push_neg at hex
      simpa [List.drop_one] using hex

/-- C4 witness: the spec's shape example — group witnesses decoding to
`[Sighash, "x"]` fail with `NonEmptyGroupWitness`. -/
theorem claim4_witness :
    generate_sighash_all_hash (fun _ x => x) parse_fixture
      ⟨List.replicate 32 17, [[0], [120]], [], 1⟩ =
      .error .NonEmptyGroupWitness :=
  (claim4_group_witness_shape (fun _ x => x) parse_fixture
    ⟨List.replicate 32 17, [[0], [120]], [], 1⟩ [0] (.Sighash [])
    rfl rfl (by decide)).mpr (by decide)

/-! ### Claim theorems for the typed-message digest engine -/

theorem encode_number_eq_spec (st : HState) (n : List Nat) (signed : Bool) :
    encode_number st n signed =
      (spec_encode_number n signed).map (fun bs => hupdate st bs) := by
  unfold encode_number spec_encode_number
  by_cases h : n.length > 32
  · simp [h, Except.map]
  · cases signed
    · simp [h, Except.map]
    · cases n with
      | nil => simp [Except.map]
      | cons b0 rest =>
        have h32 : ¬ 32 < rest.length + 1 := by simpa using h
        simp [h32, Except.map]

/-- C7: `encode_number` rejects payloads longer than 32 bytes with the
oversized-number error; otherwise it appends the raw bytes right-aligned
in a 32-byte buffer, head-padded with `0xFF` for a signed value whose
first byte has the sign bit set and with `0x00` otherwise (always `0x00`
unsigned); hence the unsigned payloads `[0x01]` and `[0x00, 0x01]` produce
identical encodings and the signed payload `[0xFF]` produces 32 bytes of
`0xFF`. -/
theorem claim7_encode_number (st : HState) :
    (∀ (n : List Nat) (signed : Bool), 32 < n.length →
      encode_number st n signed = .error .InvalidNumber) ∧
    (∀ n : List Nat, n.length ≤ 32 →
      encode_number st n false =
        .ok (hupdate st (List.replicate (32 - n.length) 0 ++ n))) ∧
    (∀ (b0 : Nat) (rest : List Nat), (b0 :: rest).length ≤ 32 →
      encode_number st (b0 :: rest) true =
        .ok (hupdate st (List.replicate (32 - (b0 :: rest).length)
          (if b0 &&& 0x80 ≠ 0 then 0xFF else 0) ++ (b0 :: rest)))) ∧
    encode_number st [0x01] false = encode_number st [0x00, 0x01] false ∧
    encode_number st [0xFF] true = .ok (hupdate st (List.replicate 32 0xFF)) := by
  refine ⟨?_, ?_, ?_, ?_, ?_⟩
  · intro n signed h
    unfold encode_number
    rw [if_pos (by omega)]
  · intro n h
    unfold encode_number
    rw [if_neg (by omega)]
  · intro b0 rest h
    unfold encode_number
    rw [if_neg (by omega)]
    rfl
  · rw [encode_number_eq_spec, encode_number_eq_spec]
    have h : spec_encode_number [0x01] false = spec_encode_number [0x00, 0x01] false := by
      rfl
    rw [h]
  · rw [encode_number_eq_spec]
    have h : spec_encode_number [0xFF] true = .ok (List.replicate 32 0xFF) := by
      rfl
    rw [h]
    rfl

/-- C7 witness: the numeric-padding round trip at the concrete inputs the
spec names. -/
theorem claim7_witness :
    encode_number ⟨[]⟩ (List.replicate 33 0) false = .error .InvalidNumber ∧
    encode_number ⟨[]⟩ [0x01] false = encode_number ⟨[]⟩ [0x00, 0x01] false ∧
    encode_number ⟨[]⟩ [0xFF] true =
      .ok (hupdate ⟨[]⟩ (List.replicate 32 0xFF)) :=
  ⟨(claim7_encode_number ⟨[]⟩).1 (List.replicate 33 0) false (by simp),
    (claim7_encode_number ⟨[]⟩).2.2.2.1,
    (claim7_encode_number ⟨[]⟩).2.2.2.2⟩

/-- C10: `encode_number` checks only the upper length bound.  For a signed
value it reads the first payload byte without a non-emptiness check: the
empty signed payload is the one and only input that reaches the
out-of-bounds slice access (modelled `Panic`, not a source error value),
and under the precondition `1 ≤ length ≤ 32` the function is total,
returning an ordinary encoding. -/
theorem claim10_encode_number_partiality (st : HState) :
    (∀ (n : List Nat) (signed : Bool),
      (encode_number st n signed = .error .Panic ↔ signed = true ∧ n = [])) ∧
    (∀ (n : List Nat) (signed : Bool), 1 ≤ n.length → n.length ≤ 32 →
      ∃ st2, encode_number st n signed = .ok st2) := by
  constructor
  · intro n signed
    unfold encode_number
    by_cases h : n.length > 32
    · rw [if_pos h]
      constructor
      · intro he; cases he
      · rintro ⟨_, hn⟩
        subst hn
        simp at h
    · rw [if_neg h]
      cases signed
      · simp
      · cases n with
        | nil => simp
        | cons b0 rest => simp
  · intro n signed h1 h32
    unfold encode_number
    rw [if_neg (by omega)]
    cases signed
    · exact ⟨_, rfl⟩
    · cases n with
      | nil => simp at h1
      | cons b0 rest => exact ⟨_, rfl⟩

/-- C10 witness: the empty signed payload reaches the modelled abort, and
a one-byte signed payload is encoded normally. -/
theorem claim10_witness :
    encode_number ⟨[]⟩ [] true = .error .Panic ∧
    ∃ st2, encode_number ⟨[]⟩ [5] true = .ok st2 :=
  ⟨((claim10_encode_number_partiality ⟨[]⟩).1 [] true).mpr ⟨rfl, rfl⟩,
    (claim10_encode_number_partiality ⟨[]⟩).2 [5] true (by simp) (by simp)⟩

mutual
/-- The source hashing agrees with the spec-side description: `hash_struct`
hashes one concatenated input. -/
theorem hash_struct_eq_spec (keccak : List Nat → List Nat) (port : Port712) :
    (s : Struct712) →
    hash_struct keccak port s = spec_hash_struct keccak port s
  | .mk th vs => by
    rw [hash_struct.eq_def, spec_hash_struct.eq_def]
    simp only [Bind.bind, Except.bind, Pure.pure, Except.pure]
    cases hf : fetch_hash port th with
    | error e => simp [hf]
    | ok h =>
      simp only [hf]
      rw [encode_values_eq_spec keccak port vs (hupdate ⟨[]⟩ h)]
      cases hv : spec_values_encoding keccak port vs with
      | error e => simp [hv, Except.map]
      | ok enc => simp [hv, Except.map, hupdate]

/-- The member loop agrees with the spec-side concatenated encoding: it
only appends bytes to the running hasher. -/
theorem encode_values_eq_spec (keccak : List Nat → List Nat)
    (port : Port712) :
    (vs : List Value712) → (st : HState) →
    encode_values keccak port vs st =
      (spec_values_encoding keccak port vs).map (fun bs => hupdate st bs)
  | [], st => by
    rw [encode_values.eq_def, spec_values_encoding.eq_def]
    simp [Pure.pure, Except.pure, Except.map, hupdate]
  | v :: rest, st => by
    rw [encode_values.eq_def, spec_values_encoding.eq_def]
    simp only [Bind.bind, Except.bind, Pure.pure, Except.pure]
    rw [encode_value_eq_spec keccak port v st]
    cases hv : spec_value_encoding keccak port v with
    | error e => simp [Except.map]
    | ok b =>
      simp only [Except.map]
      rw [encode_values_eq_spec keccak port rest (hupdate st b)]
      cases hr : spec_values_encoding keccak port rest with
      | error e => simp [Except.map]
      | ok bs => simp [Except.map, hupdate, List.append_assoc]

/-- One value's write into the running hasher is exactly an append of its
spec-side encoding. -/
theorem encode_value_eq_spec (keccak : List Nat → List Nat)
    (port : Port712) :
    (v : Value712) → (st : HState) →
    encode_value keccak port v st =
      (spec_value_encoding keccak port v).map (fun bs => hupdate st bs)
  | .Struct s, st => by
    rw [encode_value.eq_def]
    simp only [spec_value_encoding, Bind.bind, Except.bind, Pure.pure,
      Except.pure]
    rw [hash_struct_eq_spec keccak port s]
    cases hs : spec_hash_struct keccak port s with
    | error e => simp [Except.map]
    | ok h => simp [Except.map]
  | .Array vs, st => by
    rw [encode_value.eq_def]
    simp only [spec_value_encoding]
    exact encode_values_eq_spec keccak port vs st
  | .Bool raw, st => by
    rw [encode_value.eq_def]
    simp only [spec_value_encoding]
    cases raw with
    | nil => simp [Except.map]
    | cons b0 rest =>
      simp only [List.head?]
      by_cases hb : b0 ≠ 0 ∧ b0 ≠ 1
      · simp [hb, Except.map]
      · simp only [if_neg hb]
        exact encode_number_eq_spec st (b0 :: rest) false
  | .Bytes raw, st => by
    rw [encode_value.eq_def]
    simp [spec_value_encoding, Pure.pure, Except.pure, Except.map]
  | .Str raw, st => by
    rw [encode_value.eq_def]
    simp [spec_value_encoding, Pure.pure, Except.pure, Except.map]
  | .Address raw, st => by
    rw [encode_value.eq_def]
    simp only [spec_value_encoding]
    exact encode_number_eq_spec st raw false
  | .FixedBytes raw, st => by
    rw [encode_value.eq_def]
    simp only [spec_value_encoding]
    by_cases hlen : raw.length > 32
    · simp [hlen, Except.map]
    · simp [hlen, Pure.pure, Except.pure, Except.map]
  | .Int raw, st => by
    rw [encode_value.eq_def]
    simp only [spec_value_encoding]
    exact encode_number_eq_spec st raw true
  | .Uint raw, st => by
    rw [encode_value.eq_def]
    simp only [spec_value_encoding]
    exact encode_number_eq_spec st raw false
end

/-- C8: resolving a `CellRef` or `TransactionRef` hash reference through
`fetch_hash`: a port read that succeeds but wrote fewer than 32 bytes of
the requested 32-byte window fails with `CellDataEof`, while a read
reported through the distinguished insufficient-buffer status is treated
as success, the pre-zeroed 32-byte destination supplying implicit zero
fill past the written prefix (`window32`). -/
theorem claim8_fetch_hash_window (port : Port712)
    (source index offset src : Nat) (bytes : List Nat) :
    (u64_to_source source = .ok src →
      port.cell_read src index offset = .ok bytes → bytes.length < 32 →
      fetch_hash port (.RefCell source index offset) = .error .CellDataEof) ∧
    (u64_to_source source = .ok src →
      port.cell_read src index offset = .lengthNotEnough bytes →
      fetch_hash port (.RefCell source index offset) =
        .ok (bytes.take 32 ++ List.replicate (32 - bytes.length) 0)) ∧
    (port.tx_read offset = .ok bytes → bytes.length < 32 →
      fetch_hash port (.RefTransaction offset) = .error .CellDataEof) ∧
    (port.tx_read offset = .lengthNotEnough bytes →
      fetch_hash port (.RefTransaction offset) =
        .ok (bytes.take 32 ++ List.replicate (32 - bytes.length) 0)) := by
  refine ⟨?_, ?_, ?_, ?_⟩
  · intro hsrc hread hlen
    unfold fetch_hash
    simp [hsrc, Bind.bind, Except.bind, hread, hlen]
  · intro hsrc hread
    unfold fetch_hash
    simp [hsrc, Bind.bind, Except.bind, hread, window32]
  · intro hread hlen
    unfold fetch_hash
    simp [hread, hlen]
  · intro hread
    unfold fetch_hash
    simp [hread, window32]

/-- C8 witness: a port whose cell data region holds 8 bytes at the
requested window (short successful read — `CellDataEof`) and whose
transaction read reports insufficient-buffer after writing the full
window (success). -/
theorem claim8_witness :
    fetch_hash
      ⟨fun _ _ _ => .ok (List.replicate 8 7),
        fun _ => .lengthNotEnough (List.replicate 32 9)⟩
      (.RefCell 1 0 0) = .error .CellDataEof ∧
    fetch_hash
      ⟨fun _ _ _ => .ok (List.replicate 8 7),
        fun _ => .lengthNotEnough (List.replicate 32 9)⟩
      (.RefTransaction 0) = .ok (List.replicate 32 9) := by
  constructor
  · exact (claim8_fetch_hash_window
      ⟨fun _ _ _ => .ok (List.replicate 8 7),
        fun _ => .lengthNotEnough (List.replicate 32 9)⟩
      1 0 0 1 (List.replicate 8 7)).1 rfl rfl (by simp)
  · have h := (claim8_fetch_hash_window
      ⟨fun _ _ _ => .ok (List.replicate 8 7),
        fun _ => .lengthNotEnough (List.replicate 32 9)⟩
      1 0 0 1 (List.replicate 32 9)).2.2.2 rfl
    simpa using h

/-- C5: for every `TypedMessage` (whose domain resolution and struct
hashing succeed), the typed-message digest is the Keccak256 of exactly
`0x19 || 0x01 || domain_hash || message_hash` — the two magic bytes always
head the hash input. -/
theorem claim5_typed_message_prefix (keccak : List Nat → List Nat)
    (port : Port712) (domain : Hash712) (message : Struct712)
    (dh mh : List Nat)
    (hd : fetch_hash port domain = .ok dh)
    (hm : hash_struct keccak port message = .ok mh) :
    build_typed_message_hash keccak port (.EIP712 domain message) =
      .ok (keccak ([0x19, 0x01] ++ dh ++ mh)) := by
  rw [build_typed_message_hash.eq_def]
  simp only [Bind.bind, Except.bind, Pure.pure, Except.pure, hd, hm]
  simp [hupdate]

/-- C5 witness: a concrete typed message with an inline domain hash and an
empty member list, under the identity in place of the Keccak primitive:
the digest input is the two magic bytes, the domain hash, then the
message struct hash. -/
theorem claim5_witness :
    build_typed_message_hash (fun x => x) port712_fixture
      (.EIP712 (.Byte32 (List.replicate 32 3))
        (.mk (.Byte32 (List.replicate 32 4)) [])) =
      .ok ([0x19, 0x01] ++ List.replicate 32 3 ++ List.replicate 32 4) := by
  refine claim5_typed_message_prefix (fun x => x) port712_fixture
    (.Byte32 (List.replicate 32 3)) (.mk (.Byte32 (List.replicate 32 4)) [])
    (List.replicate 32 3) (List.replicate 32 4) (by simp [fetch_hash]) ?_
  simp [hash_struct.eq_def, encode_values.eq_def, fetch_hash,
    Bind.bind, Except.bind, Pure.pure, Except.pure, hupdate]

/-- C6: `hash_struct` hashes the single concatenated input
`type_hash || encode(v1) || encode(v2) || …` over the declared member
order (members are not hashed individually first), and the `Array` arm of
`encode_value` appends each element's own encoding in place into the same
running hash input (`spec_values_encoding`, the plain concatenation of
element encodings, with no pre-hashing of the concatenation). -/
theorem claim6_hash_struct_concat (keccak : List Nat → List Nat)
    (port : Port712) :
    (∀ (th : Hash712) (vs : List Value712) (tb enc : List Nat),
      fetch_hash port th = .ok tb →
      spec_values_encoding keccak port vs = .ok enc →
      hash_struct keccak port (.mk th vs) = .ok (keccak (tb ++ enc))) ∧
    (∀ (vs : List Value712) (st : HState),
      encode_value keccak port (.Array vs) st =
        (spec_values_encoding keccak port vs).map (fun bs => hupdate st bs)) ∧
    (∀ (v : Value712) (vs : List Value712) (b bs : List Nat),
      spec_value_encoding keccak port v = .ok b →
      spec_values_encoding keccak port vs = .ok bs →
      spec_values_encoding keccak port (v :: vs) = .ok (b ++ bs)) := by
  refine ⟨?_, ?_, ?_⟩
  · intro th vs tb enc hth henc
    rw [hash_struct_eq_spec, spec_hash_struct.eq_def]
    simp [Bind.bind, Except.bind, Pure.pure, Except.pure, hth, henc]
  · intro vs st
    rw [encode_value_eq_spec]
    simp [spec_value_encoding]
  · intro v vs b bs hb hbs
    rw [spec_values_encoding.eq_def]
    simp [Bind.bind, Except.bind, Pure.pure, Except.pure, hb, hbs]

/-- C6 witness: a struct with one `Uint` member hashes the concatenation
of the resolved type hash and the member's 32-byte encoding (identity in
place of the Keccak primitive). -/
theorem claim6_witness :
    hash_struct (fun x => x) port712_fixture
      (.mk (.Byte32 (List.replicate 32 4)) [.Uint [1]]) =
      .ok (List.replicate 32 4 ++ (List.replicate 31 0 ++ [1])) := by
  refine (claim6_hash_struct_concat (fun x => x) port712_fixture).1
    (.Byte32 (List.replicate 32 4)) [.Uint [1]]
    (List.replicate 32 4) (List.replicate 31 0 ++ [1])
    (by simp [fetch_hash]) ?_
  simp [spec_values_encoding.eq_def, spec_value_encoding.eq_def,
    spec_encode_number, Bind.bind, Except.bind, Pure.pure, Except.pure]

end CkbTms
